import Mathlib

/-!
# System monitor dashboard (`main.go`): embedding and verified properties

The Go program keeps three `float64` percentages and a host snapshot in a
`model`, refreshes them on every tick (`Update`) and renders them as text
(`View`, `progress`, `repeat`).

The embedding is shallow:

* `float64` is modelled exactly.  Every finite binary64 value is an integer
  multiple of `2^-1074`, so a finite value is a sign and a natural number of
  such units; arithmetic rounds to nearest, ties to even, as IEEE 754 does.
* a Go panic (index out of range, nil dereference, `makeslice: len out of
  range`) is the result `none`.
* the results of the gopsutil probes, the lipgloss renderers and the
  implementation-dependent part of the `float64 → int` conversion are inputs.
-/

set_option exponentiation.threshold 4096
set_option maxRecDepth 100000

namespace SysMon

/-! ## binary64 arithmetic -/

/-- Number of units (`2^-1074`, the smallest subnormal) in `1.0`. -/
def scale : Nat := 2 ^ 1074

/-- A `float64`: NaN, an infinity, or the finite value `(-1)^neg * n * 2^-1074`. -/
inductive F64 where
  | nan : F64
  | inf (neg : Bool) : F64
  | fin (neg : Bool) (n : Nat) : F64
  deriving DecidableEq

/-- Nearest integer to `N / D`, ties to even. -/
def rne (N D : Nat) : Nat :=
  let q := N / D
  let r := N % D
  if 2 * r < D then q
  else if D < 2 * r then q + 1
  else if q % 2 = 0 then q else q + 1

/-- Binary digits of `n < 2^(2^k)`, found by halving the window `k` times. -/
def bitLenAux : Nat → Nat → Nat
  | 0, n => if n = 0 then 0 else 1
  | k + 1, n =>
    if n < 2 ^ 2 ^ k then bitLenAux k n else 2 ^ k + bitLenAux k (n / 2 ^ 2 ^ k)

/-- Look for a window `2^(2^k)` above `n`, then count the digits inside it. -/
def bitLenUp : Nat → Nat → Nat → Nat
  | 0, k, n => bitLenAux k n
  | fuel + 1, k, n => if n < 2 ^ 2 ^ k then bitLenAux k n else bitLenUp fuel (k + 1) n

/-- Number of binary digits of `n` (0 for 0). -/
def bitLen (n : Nat) : Nat := bitLenUp n 0 n

/-- Round the non-negative rational `N / D` (in units of `2^-1074`) to a 53-bit
significand: below `2^53` units the spacing is one unit (subnormals and the first
normal binade), and it doubles with every further binade. -/
def roundNE (N D : Nat) : Nat :=
  let q := N / D
  let s := bitLen q - 53
  rne N (D * 2 ^ s) * 2 ^ s

/-- A finite result, or an infinity once the rounded magnitude reaches `2^1024`. -/
def F64.pack (neg : Bool) (n : Nat) : F64 :=
  if n < 2 ^ 1024 * scale then F64.fin neg n else F64.inf neg

/-- Conversion of an integer to `float64` (`float64(w)`, and integer constants). -/
def F64.ofInt (i : Int) : F64 :=
  F64.fin (decide (i < 0)) (roundNE (i.natAbs * scale) 1)

/-- The `float64` product `x * y`. -/
def F64.mul : F64 → F64 → F64
  | .nan, _ => .nan
  | _, .nan => .nan
  | .inf s, .inf t => .inf (xor s t)
  | .inf s, .fin t n => if n = 0 then .nan else .inf (xor s t)
  | .fin s n, .inf t => if n = 0 then .nan else .inf (xor s t)
  | .fin s a, .fin t b => F64.pack (xor s t) (roundNE (a * b) scale)

/-- The `float64` quotient `x / y` (no panic: division by zero gives an infinity or NaN). -/
def F64.div : F64 → F64 → F64
  | .nan, _ => .nan
  | _, .nan => .nan
  | .inf _, .inf _ => .nan
  | .inf s, .fin t _ => .inf (xor s t)
  | .fin s _, .inf t => .fin (xor s t) 0
  | .fin s a, .fin t b =>
    if b = 0 then (if a = 0 then .nan else .inf (xor s t))
    else F64.pack (xor s t) (roundNE (a * scale) b)

/-- The signed number of units of a finite value. -/
def F64.units (neg : Bool) (n : Nat) : Int := if neg then -(n : Int) else (n : Int)

/-- The comparison `x <= y` of two `float64` (false as soon as one is NaN; `-0 = +0`). -/
def F64.le : F64 → F64 → Bool
  | .nan, _ => false
  | _, .nan => false
  | .inf true, _ => true
  | _, .inf false => true
  | .inf false, _ => false
  | _, .inf true => false
  | .fin s a, .fin t b => decide (F64.units s a ≤ F64.units t b)

/-- The comparison `x < y` of two `float64`. -/
def F64.lt : F64 → F64 → Bool
  | .nan, _ => false
  | _, .nan => false
  | .inf false, _ => false
  | _, .inf true => false
  | .inf true, _ => true
  | _, .inf false => true
  | .fin s a, .fin t b => decide (F64.units s a < F64.units t b)

/-- The exact rational value of a finite `float64` (0 for NaN and the infinities). -/
def F64.toRat : F64 → ℚ
  | .fin neg n => (F64.units neg n : ℚ) / (scale : ℚ)
  | _ => 0

/-- The value is a genuine binary64 number: below `2^1024` and with at most 53
significant bits above the unit `2^-1074`. -/
def F64.isBinary64 : F64 → Bool
  | .fin _ n => decide (n < 2 ^ 1024 * scale) && decide (n % 2 ^ (bitLen n - 53) = 0)
  | _ => true

/-! ## machine integers and the `float64 → int` conversion -/

/-- Range of `int`, which has 64 bits on the 64-bit targets modelled here. -/
def inInt64 (v : Int) : Bool := decide (-(2 : Int) ^ 63 ≤ v) && decide (v < (2 : Int) ^ 63)

/-- Two's-complement wraparound of `int` arithmetic. -/
def wrapInt64 (v : Int) : Int := (v + 2 ^ 63) % 2 ^ 64 - 2 ^ 63

/-- What the Go specification leaves to the implementation: the result of
converting to `int` a `float64` whose truncation `int` cannot represent
(NaN, infinities, magnitudes of `2^63` and more). -/
structure Platform where
  convOverflow : F64 → Int

/-- The amd64 conversion instruction returns the "integer indefinite" value `-2^63`. -/
def amd64 : Platform := ⟨fun _ => -(2 : Int) ^ 63⟩

/-- The arm64 conversion instruction saturates, and maps NaN to 0. -/
def arm64 : Platform :=
  ⟨fun x => match x with
    | .nan => 0
    | .inf neg => if neg then -(2 : Int) ^ 63 else (2 : Int) ^ 63 - 1
    | .fin neg _ => if neg then -(2 : Int) ^ 63 else (2 : Int) ^ 63 - 1⟩

/-- The conversion `int(x)`: truncation toward zero when it is representable. -/
def F64.toInt (pf : Platform) : F64 → Int
  | .fin neg n =>
    let v := F64.units neg (n / scale)
    if inInt64 v then v else pf.convOverflow (.fin neg n)
  | x => pf.convOverflow x

/-! ## `fmt` verbs -/

/-- The verb `%.1f`: the decimal with one fractional digit nearest to the exact
value (ties to even), with a minus sign when the sign bit is set. -/
def fmtF1 : F64 → String
  | .nan => "NaN"
  | .inf false => "+Inf"
  | .inf true => "-Inf"
  | .fin neg n =>
    let t := rne (10 * n) scale
    (if neg then "-" else "") ++ Nat.repr (t / 10) ++ "." ++ Nat.repr (t % 10)

/-! ## `repeat` and `progress` -/

/-- The loop `for i := range b { b[i] = r }`. -/
def fillRunes (r : Char) (b : List Char) : List Char :=
  (List.range b.length).foldl (fun acc i => acc.set i r) b

/-- Go `repeat(r, n)`: `make([]rune, n)` panics for a negative `n`; otherwise the
zeroed slice is filled with `r`.  (Allocation limits are not modelled.) -/
def repeatRune (r : Char) (n : Int) : Option (List Char) :=
  if n < 0 then none
  else some (fillRunes r (List.replicate n.toNat (Char.ofNat 0)))

/-- Go `progress(percent)`. -/
def progress (pf : Platform) (percent : F64) : Option String :=
  let w : Int := 20
  let c := F64.toInt pf (F64.mul (F64.div percent (F64.ofInt 100)) (F64.ofInt w))
  let c := if c > w then w else c
  (repeatRune '=' c).bind fun a =>
  (repeatRune ' ' (wrapInt64 (w - c))).bind fun b =>
  some ("[" ++ String.mk a ++ String.mk b ++ "] " ++ fmtF1 percent ++ "%")

/-- The fill count of `progress`: its local `c` after the clamp `if c > w { c = w }`. -/
def fillCount (pf : Platform) (percent : F64) : Int :=
  let w : Int := 20
  let c := F64.toInt pf (F64.mul (F64.div percent (F64.ofInt 100)) (F64.ofInt w))
  if c > w then w else c

/-! ## the bubbletea model -/

/-- The fields of gopsutil `host.InfoStat` that `View` reads. -/
structure InfoStat where
  Hostname : String
  Platform : String
  PlatformVersion : String
  KernelVersion : String
  Uptime : Nat

/-- Go `model`; `hostInfo` is a pointer (`none` is nil) and `err` an error
(`none` is nil, `some s` an error whose message is `s`). -/
structure model where
  cpuPercent : F64
  memPercent : F64
  diskPercent : F64
  hostInfo : Option InfoStat
  err : Option String

/-- A bubbletea key message, given by the value of its `String()` method. -/
structure KeyMsg where
  str : String

/-- The messages `Update` distinguishes: a key, a `tickMsg` (a time), anything else. -/
inductive Msg where
  | key (k : KeyMsg) : Msg
  | tick (t : Int) : Msg
  | other : Msg

/-- The commands `Update` returns: `tea.Quit`, or `tea.Tick` with a delay in
nanoseconds that delivers a `tickMsg`. -/
inductive Cmd where
  | quit : Cmd
  | tick (delay : Nat) : Cmd
  deriving DecidableEq

/-- Go `time.Second`, in nanoseconds. -/
def timeSecond : Nat := 1000000000

/-- What the three probes return to one tick: the slice of `cpu.Percent(0, false)`,
the `UsedPercent` behind the pointer of `mem.VirtualMemory()`, the `Percent` behind
the pointer of `disk.Usage("/")`.  A failed probe returns an empty slice or a nil
pointer (`none`); the error values themselves are discarded by `Update`. -/
structure Probes where
  cpu : List F64
  mem : Option F64
  disk : Option F64

/-- Go `initialModel()`, for the pointer `h` that `host.Info()` returned. -/
def initialModel (h : Option InfoStat) : model :=
  { cpuPercent := .fin false 0, memPercent := .fin false 0, diskPercent := .fin false 0,
    hostInfo := h, err := none }

/-- Go `tickCmd()`. -/
def tickCmd : Cmd := Cmd.tick timeSecond

/-- Go `model.Update`: the new model and the command (`none` is the nil command),
or `none` when the method panics. -/
def Update (m : model) (msg : Msg) (pr : Probes) : Option (model × Option Cmd) :=
  match msg with
  | .key k =>
    if k.str = "q" ∨ k.str = "ctrl+c" then some (m, some Cmd.quit)
    else some (m, none)
  | .tick _ =>
    pr.cpu[0]?.bind fun c0 =>
    pr.mem.bind fun v =>
    pr.disk.bind fun d =>
    some ({ m with cpuPercent := c0, memPercent := v, diskPercent := d }, some tickCmd)
  | .other => some (m, none)

/-- The two lipgloss renderers `View` calls: `listHeader` and `docStyle.Render`. -/
structure Lipgloss where
  listHeader : String → String
  docStyleRender : String → String

/-- The four host lines `View` writes when `hostInfo` is not nil. -/
def hostBlock (h : InfoStat) : String :=
  "Hostname: " ++ h.Hostname ++ "\n"
    ++ ("OS:       " ++ h.Platform ++ " " ++ h.PlatformVersion ++ "\n")
    ++ ("Kernel:   " ++ h.KernelVersion ++ "\n")
    ++ ("Uptime:   " ++ Nat.repr (h.Uptime / 3600) ++ " hours\n")

/-- The text `View` accumulates in its `strings.Builder` when `err` is nil. -/
def viewDoc (lg : Lipgloss) (pf : Platform) (m : model) : Option String :=
  let doc := lg.listHeader "System Monitor" ++ "\n\n"
  let doc := match m.hostInfo with
    | some h => doc ++ hostBlock h
    | none => doc
  let doc := doc ++ "\n"
  (progress pf m.cpuPercent).bind fun cpu =>
  (progress pf m.memPercent).bind fun ram =>
  (progress pf m.diskPercent).bind fun disk =>
  some (doc ++ ("CPU:  " ++ cpu ++ "\n") ++ ("RAM:  " ++ ram ++ "\n")
    ++ ("Disk: " ++ disk ++ "\n") ++ "\nPress 'q' to quit")

/-- Go `model.View`, or `none` when it panics. -/
def View (lg : Lipgloss) (pf : Platform) (m : model) : Option String :=
  match m.err with
  | some e => some ("Error: " ++ e)
  | none => (viewDoc lg pf m).map lg.docStyleRender

/-! ## specification-side notions -/

/-- The number `K` of units is on the binary64 grid: from `2^(52+i)` on, it is a
multiple of `2^i`. -/
def OnGrid (K : Nat) : Prop := ∀ i, 2 ^ (52 + i) ≤ K → 2 ^ i ∣ K

/-- The specification's `clamp(v, lo, hi)`. -/
def clamp (v lo hi : Int) : Int := max lo (min v hi)

/-- The fill count in the specification's words:
`filled = clamp(floor(p / 100 * 20), 0, 20)`, the product being the `float64` one. -/
def specFilled (p : F64) : Nat :=
  (clamp ⌊F64.toRat (F64.mul (F64.div p (F64.ofInt 100)) (F64.ofInt 20))⌋ 0 20).toNat

/-- The bar in the specification's words: `filled` fill characters followed by
`20 - filled` blanks. -/
def specBar (p : F64) : List Char :=
  List.replicate (specFilled p) '=' ++ List.replicate (20 - specFilled p) ' '

/-- The text `s` is a decimal numeral with exactly one digit after the point (an
optional minus sign, an integer part, the point, one digit) and its value is within
half a tenth of the magnitude of `p`. -/
def OneDecimalOf (s : String) (p : F64) : Prop :=
  ∃ (sign : Bool) (i d : Nat), d < 10 ∧
    s = (if sign then "-" else "") ++ Nat.repr i ++ "." ++ Nat.repr d ∧
    abs (((10 * i + d : Nat) : ℚ) / 10 - abs (F64.toRat p)) ≤ 1 / 20

/-- The states the program can be in: `initialModel()` for the pointer `h` that
`host.Info()` returned, and every model a non-panicking `Update` returns from one. -/
inductive Reachable (h : Option InfoStat) : model → Prop where
  | init : Reachable h (initialModel h)
  | step {m m' : model} {cmd : Option Cmd} (msg : Msg) (pr : Probes) :
      Reachable h m → Update m msg pr = some (m', cmd) → Reachable h m'

/-! ## named inputs -/

/-- The `float64` nearest to `k / 10`: the value of a literal with one decimal, such
as `37.2` for `k = 372`. -/
def tenths (k : Nat) : F64 := F64.div (F64.ofInt k) (F64.ofInt 10)

/-- The `float64` value `-10.0`. -/
def fNeg10 : F64 := .fin true (10 * scale)

/-- The `float64` value `1e30` (exactly 1000000000000000019884624838656). -/
def f1e30 : F64 := .fin false (1000000000000000019884624838656 * scale)

/-- The `float64` just below `15.0`: `0x1.dffffffffffffp+3`, printed `14.999999999999998`. -/
def fBelow15 : F64 := .fin false (8444249301319679 * 2 ^ 1025)

/-- The check evaluated for each one-decimal percentage: `tenths k` is a non-negative
value of at most `100.0` and its fill count is the integer part of a fifth of it. -/
def tenthsCheck (k : Nat) : Bool :=
  match tenths k with
  | .fin false n =>
    decide (n ≤ 100 * scale) && decide (fillCount amd64 (.fin false n) = ((n / (5 * scale) : Nat) : Int))
  | _ => false

/-- The characters `progress` can write. -/
def barAlphabet : List Char := "[]= %.-+0123456789NaInf".data

/-- The characters of the text `View` writes after the header when there is no host block. -/
def bodyAlphabet : List Char := barAlphabet ++ "\nCPU:RAMDisk'Pretoqu".data

/-- The labels of the four host lines. -/
def hostLabels : List String := ["Hostname:", "OS:", "Kernel:", "Uptime:"]

/-- What `View` writes after the header when `hostInfo` is nil: the separators, the
three metric lines in the order CPU, RAM, Disk, and the footer. -/
def metricsBody (cpu ram disk : String) : String :=
  "\n\n" ++ "\n" ++ ("CPU:  " ++ cpu ++ "\n") ++ ("RAM:  " ++ ram ++ "\n")
    ++ ("Disk: " ++ disk ++ "\n") ++ "\nPress 'q' to quit"

/-- The percentage is within the range `[0, 100]` of the data model. -/
def inPercentRange (p : F64) : Prop :=
  F64.le (F64.ofInt 0) p = true ∧ F64.le p (F64.ofInt 100) = true

/-- A model for the examples: no error, no host information, metrics 37.2, 81.0, 5.5. -/
def exampleModel : model :=
  { cpuPercent := tenths 372, memPercent := tenths 810, diskPercent := tenths 55,
    hostInfo := none, err := none }

/-- Renderers that leave the text as it is, for the examples. -/
def plainLipgloss : Lipgloss := ⟨fun s => s, fun s => s⟩

/-- What `View` has written when it reaches the metrics: the header, the host block
when there is one, and the separating line feed. -/
def docPrefix (lg : Lipgloss) (m : model) : String :=
  (match m.hostInfo with
    | some h => lg.listHeader "System Monitor" ++ "\n\n" ++ hostBlock h
    | none => lg.listHeader "System Monitor" ++ "\n\n") ++ "\n"

/-- The fill count of the specification with its formula read in exact arithmetic:
`filled = clamp(floor(p / 100 * 20), 0, 20)` on the rational value of `p`. -/
def exactFilled (p : F64) : Nat :=
  (clamp ⌊F64.toRat p / 100 * 20⌋ 0 20).toNat

/-- A model with no error and no host information whose CPU percentage is `-10.0`. -/
def negModel : model :=
  { cpuPercent := fNeg10, memPercent := .fin false 0, diskPercent := .fin false 0,
    hostInfo := none, err := none }

/-- A model with no error and no host information whose memory percentage is NaN. -/
def nanModel : model :=
  { cpuPercent := .fin false 0, memPercent := .nan, diskPercent := .fin false 0,
    hostInfo := none, err := none }

/-- The Boolean `f` holds at `lo, lo + 1, ..., lo + n - 1`. -/
def allFrom (f : Nat → Bool) (lo : Nat) : Nat → Bool
  | 0 => true
  | n + 1 => f (lo + n) && allFrom f lo n

/-! # Theorems -/

/-! ## bit length -/

theorem bitLenAux_zero (k : Nat) : bitLenAux k 0 = 0 := by
  induction k with
  | zero => simp [bitLenAux]
  | succ k ih => simp [bitLenAux, ih]

theorem bitLenAux_spec (k : Nat) : ∀ n, n ≠ 0 → n < 2 ^ 2 ^ k →
    1 ≤ bitLenAux k n ∧ 2 ^ (bitLenAux k n - 1) ≤ n ∧ n < 2 ^ bitLenAux k n := by
  induction k with
  | zero =>
    intro n h0 hlt
    have : n = 1 := by simp at hlt; omega
    subst this
    simp [bitLenAux]
  | succ k ih =>
    intro n h0 hlt
    unfold bitLenAux
    split
    · next h => exact ih n h0 h
    · next h =>
      have hpos : 0 < 2 ^ 2 ^ k := by positivity
      have hge : 2 ^ 2 ^ k ≤ n := by omega
      have hq0 : n / 2 ^ 2 ^ k ≠ 0 := by
        have := Nat.div_pos hge hpos
        omega
      have hsq : (2 : Nat) ^ 2 ^ (k + 1) = 2 ^ 2 ^ k * 2 ^ 2 ^ k := by
        rw [← pow_add]; congr 1; rw [pow_succ]; omega
      have hqlt : n / 2 ^ 2 ^ k < 2 ^ 2 ^ k := by
        rw [Nat.div_lt_iff_lt_mul hpos]; omega
      obtain ⟨h1, h2, h3⟩ := ih _ hq0 hqlt
      have hk : 0 < 2 ^ k := by positivity
      refine ⟨by omega, ?_, ?_⟩
      · have e : 2 ^ k + bitLenAux k (n / 2 ^ 2 ^ k) - 1
            = (bitLenAux k (n / 2 ^ 2 ^ k) - 1) + 2 ^ k := by omega
        rw [e, pow_add]
        calc 2 ^ (bitLenAux k (n / 2 ^ 2 ^ k) - 1) * 2 ^ 2 ^ k
            ≤ (n / 2 ^ 2 ^ k) * 2 ^ 2 ^ k := Nat.mul_le_mul_right _ h2
          _ ≤ n := Nat.div_mul_le_self n _
      · rw [Nat.add_comm, pow_add]
        exact (Nat.div_lt_iff_lt_mul hpos).mp h3

theorem bitLenUp_eq (fuel : Nat) : ∀ k n, n ≤ k + fuel →
    ∃ j, n < 2 ^ 2 ^ j ∧ bitLenUp fuel k n = bitLenAux j n := by
  induction fuel with
  | zero =>
    intro k n h
    refine ⟨k, ?_, rfl⟩
    calc n < 2 ^ n := Nat.lt_two_pow n
      _ ≤ 2 ^ 2 ^ k := Nat.pow_le_pow_right (by norm_num) (by
          calc n ≤ k := by omega
            _ ≤ 2 ^ k := (Nat.lt_two_pow k).le)
  | succ fuel ih =>
    intro k n h
    unfold bitLenUp
    split
    · next hlt => exact ⟨k, hlt, rfl⟩
    · exact ih (k + 1) n (by omega)

theorem bitLen_zero : bitLen 0 = 0 := by
  simp [bitLen, bitLenUp, bitLenAux]

theorem bitLen_spec (n : Nat) (h0 : n ≠ 0) :
    1 ≤ bitLen n ∧ 2 ^ (bitLen n - 1) ≤ n ∧ n < 2 ^ bitLen n := by
  obtain ⟨j, hj, e⟩ := bitLenUp_eq n 0 n (by omega)
  unfold bitLen
  rw [e]
  exact bitLenAux_spec j n h0 hj

/-! ## rounding -/

theorem rne_cases (N D : Nat) :
    rne N D = N / D ∨ (rne N D = N / D + 1 ∧ D ≤ 2 * (N % D)) := by
  unfold rne
  simp only
  split
  · exact Or.inl rfl
  · next h1 =>
    split
    · exact Or.inr ⟨rfl, by omega⟩
    · split
      · exact Or.inl rfl
      · exact Or.inr ⟨rfl, by omega⟩

theorem le_rne {N D j : Nat} (hD : 0 < D) (h : j * D ≤ N) : j ≤ rne N D := by
  have hq : j ≤ N / D := (Nat.le_div_iff_mul_le hD).mpr h
  rcases rne_cases N D with e | ⟨e, _⟩ <;> omega

theorem rne_le {N D j : Nat} (hD : 0 < D) (h : N ≤ j * D) : rne N D ≤ j := by
  have hq : N / D ≤ j := by
    apply Nat.div_le_of_le_mul
    rw [Nat.mul_comm]; exact h
  rcases rne_cases N D with e | ⟨e, hr⟩
  · omega
  · rw [e]
    have hne : N / D ≠ j := by
      intro hj
      have hdm := Nat.div_add_mod N D
      rw [hj, Nat.mul_comm] at hdm
      omega
    omega

theorem onGrid_mul_pow {k j : Nat} (hk : k < 2 ^ 53) : OnGrid (k * 2 ^ j) := by
  intro i hi
  have hij : i ≤ j := by
    by_contra hcon
    have h1 : j + 1 ≤ i := by omega
    have h2 : 2 ^ (52 + (j + 1)) ≤ 2 ^ (52 + i) :=
      Nat.pow_le_pow_right (by norm_num) (by omega)
    have h3 : k * 2 ^ j < 2 ^ 53 * 2 ^ j :=
      Nat.mul_lt_mul_of_pos_right hk (by positivity)
    have h4 : (2 : Nat) ^ (52 + (j + 1)) = 2 ^ 53 * 2 ^ j := by
      rw [← pow_add]; congr 1; omega
    omega
  exact Dvd.dvd.mul_left (pow_dvd_pow 2 hij) k

theorem roundNE_shift (N D : Nat) :
    bitLen (N / D) - 53 = 0 ∨
      (0 < bitLen (N / D) - 53 ∧ 2 ^ (52 + (bitLen (N / D) - 53)) ≤ N / D) := by
  by_cases hs : bitLen (N / D) - 53 = 0
  · exact Or.inl hs
  · right
    refine ⟨by omega, ?_⟩
    have hq0 : N / D ≠ 0 := by
      intro h0
      rw [h0, bitLen_zero] at hs
      exact hs rfl
    obtain ⟨_, h2, _⟩ := bitLen_spec _ hq0
    have e : 52 + (bitLen (N / D) - 53) = bitLen (N / D) - 1 := by omega
    rw [e]; exact h2

theorem roundNE_le {N D K : Nat} (hK : OnGrid K) (hD : 0 < D) (h : N ≤ K * D) :
    roundNE N D ≤ K := by
  have hq : N / D ≤ K := by
    apply Nat.div_le_of_le_mul
    rw [Nat.mul_comm]; exact h
  unfold roundNE
  simp only
  generalize hs : bitLen (N / D) - 53 = s
  have hdvd : 2 ^ s ∣ K := by
    rcases roundNE_shift N D with h0 | ⟨_, h1⟩
    · rw [hs] at h0; subst h0; simp
    · rw [hs] at h1; exact hK s (le_trans h1 hq)
  obtain ⟨K', rfl⟩ := hdvd
  have hpos : 0 < D * 2 ^ s := by positivity
  have : rne N (D * 2 ^ s) ≤ K' := by
    apply rne_le hpos
    calc N ≤ 2 ^ s * K' * D := h
      _ = K' * (D * 2 ^ s) := by ring
  calc rne N (D * 2 ^ s) * 2 ^ s ≤ K' * 2 ^ s := Nat.mul_le_mul_right _ this
    _ = 2 ^ s * K' := Nat.mul_comm _ _

theorem le_roundNE {N D K : Nat} (hK : OnGrid K) (hD : 0 < D) (h : K * D ≤ N) :
    K ≤ roundNE N D := by
  have hq : K ≤ N / D := (Nat.le_div_iff_mul_le hD).mpr h
  unfold roundNE
  simp only
  generalize hs : bitLen (N / D) - 53 = s
  have hpos : 0 < D * 2 ^ s := by positivity
  have hqD : N / D * D ≤ N := Nat.div_mul_le_self N D
  by_cases hdvd : 2 ^ s ∣ K
  · obtain ⟨K', rfl⟩ := hdvd
    have : K' ≤ rne N (D * 2 ^ s) := by
      apply le_rne hpos
      calc K' * (D * 2 ^ s) = 2 ^ s * K' * D := by ring
        _ ≤ N := h
    calc 2 ^ s * K' = K' * 2 ^ s := Nat.mul_comm _ _
      _ ≤ rne N (D * 2 ^ s) * 2 ^ s := Nat.mul_le_mul_right _ this
  · rcases roundNE_shift N D with h0 | ⟨_, h1⟩
    · rw [hs] at h0; subst h0; simp at hdvd
    · rw [hs] at h1
      have hlt : K < 2 ^ (52 + s) := by
        by_contra hcon
        exact hdvd (hK s (by omega))
      have : 2 ^ 52 ≤ rne N (D * 2 ^ s) := by
        apply le_rne hpos
        calc 2 ^ 52 * (D * 2 ^ s) = 2 ^ (52 + s) * D := by rw [pow_add]; ring
          _ ≤ N / D * D := Nat.mul_le_mul_right _ h1
          _ ≤ N := hqD
      calc K ≤ 2 ^ (52 + s) := hlt.le
        _ = 2 ^ 52 * 2 ^ s := by rw [pow_add]
        _ ≤ rne N (D * 2 ^ s) * 2 ^ s := Nat.mul_le_mul_right _ this

/-! ## `repeat` -/

theorem foldl_set_length (r : Char) (l : List Nat) : ∀ b : List Char,
    (l.foldl (fun acc i => acc.set i r) b).length = b.length := by
  induction l with
  | nil => intro b; rfl
  | cons i l ih => intro b; simp [List.foldl_cons, ih]

theorem foldl_set_range (r : Char) (b : List Char) : ∀ k, k ≤ b.length →
    (List.range k).foldl (fun acc i => acc.set i r) b
      = List.replicate k r ++ b.drop k := by
  intro k
  induction k with
  | zero => intro _; simp
  | succ k ih =>
    intro hk
    rw [List.range_succ, List.foldl_append, ih (by omega)]
    simp only [List.foldl_cons, List.foldl_nil]
    apply List.ext_getElem
    · simp; omega
    · intro i h1 h2
      simp only [List.getElem_set, List.getElem_append, List.length_replicate,
        List.getElem_replicate, List.getElem_drop]
      by_cases hik : i = k
      · subst hik; simp
      · by_cases hlt : i < k
        · have : i < k + 1 := by omega
          simp [hlt, this, Ne.symm hik]
        · have h3 : ¬ i < k + 1 := by omega
          simp only [hlt, h3, Ne.symm hik, ↓reduceIte, ↓reduceDIte]
          congr 1
          omega

theorem fillRunes_eq (r : Char) (b : List Char) : fillRunes r b = List.replicate b.length r := by
  unfold fillRunes
  rw [foldl_set_range r b b.length (le_refl _)]
  simp

theorem repeatRune_of_nonneg (r : Char) {n : Int} (h : 0 ≤ n) :
    repeatRune r n = some (List.replicate n.toNat r) := by
  unfold repeatRune
  rw [if_neg (by omega), fillRunes_eq]
  simp

theorem repeatRune_of_neg (r : Char) {n : Int} (h : n < 0) : repeatRune r n = none := by
  unfold repeatRune
  rw [if_pos h]

/-! ## the product `percent / 100 * 20` -/

theorem scale_pos : 0 < scale := by unfold scale; positivity

theorem ofInt_zero : F64.ofInt 0 = .fin false 0 := by decide!

theorem ofInt_20 : F64.ofInt 20 = .fin false (20 * scale) := by decide!

theorem ofInt_100 : F64.ofInt 100 = .fin false (100 * scale) := by decide!

theorem pack_of_lt (neg : Bool) {n : Nat} (h : n < 2 ^ 1024 * scale) :
    F64.pack neg n = .fin neg n := by
  unfold F64.pack
  rw [if_pos h]

theorem div_100 (neg : Bool) (n : Nat) :
    F64.div (.fin neg n) (F64.ofInt 100) = F64.pack neg (roundNE (n * scale) (100 * scale)) := by
  have h : 100 * scale ≠ 0 := by have := scale_pos; omega
  rw [ofInt_100]
  simp [F64.div, h]

theorem mul_20 (neg : Bool) (n : Nat) :
    F64.mul (.fin neg n) (F64.ofInt 20) = F64.pack neg (roundNE (n * (20 * scale)) scale) := by
  rw [ofInt_20]
  simp [F64.mul]

theorem onGrid_scale : OnGrid scale := by
  have := @onGrid_mul_pow 1 1074 (by norm_num)
  simpa [scale] using this

theorem onGrid_20 : OnGrid (20 * scale) := @onGrid_mul_pow 20 1074 (by norm_num)

theorem onGrid_zero : OnGrid 0 := by
  intro i hi
  exact dvd_zero _

theorem small_lt_max {X k : Nat} (hk : k < 2 ^ 1024) (h : X ≤ k * scale) :
    X < 2 ^ 1024 * scale :=
  lt_of_le_of_lt h (Nat.mul_lt_mul_of_pos_right hk scale_pos)

/-- For a magnitude of at most `100.0` the product is finite, at most `20.0`, and
zero when the magnitude is zero. -/
theorem prod_of_le_100 (neg : Bool) {n : Nat} (hn : n ≤ 100 * scale) :
    ∃ X, F64.mul (F64.div (.fin neg n) (F64.ofInt 100)) (F64.ofInt 20) = .fin neg X
      ∧ X ≤ 20 * scale ∧ (n = 0 → X = 0) := by
  have hY : roundNE (n * scale) (100 * scale) ≤ scale := by
    apply roundNE_le onGrid_scale (by have := scale_pos; omega)
    calc n * scale ≤ 100 * scale * scale := Nat.mul_le_mul_right _ hn
      _ = scale * (100 * scale) := by ring
  have hX : roundNE (roundNE (n * scale) (100 * scale) * (20 * scale)) scale ≤ 20 * scale := by
    apply roundNE_le onGrid_20 scale_pos
    calc roundNE (n * scale) (100 * scale) * (20 * scale) ≤ scale * (20 * scale) :=
          Nat.mul_le_mul_right _ hY
      _ = 20 * scale * scale := by ring
  refine ⟨roundNE (roundNE (n * scale) (100 * scale) * (20 * scale)) scale, ?_, hX, ?_⟩
  · rw [div_100, pack_of_lt neg (small_lt_max (k := 1) (by norm_num) (by simpa using hY)),
      mul_20, pack_of_lt neg (small_lt_max (k := 20) (by norm_num) hX)]
  · intro h0
    subst h0
    have h1 : roundNE (0 * scale) (100 * scale) ≤ 0 :=
      roundNE_le onGrid_zero (by have := scale_pos; omega) (by simp)
    have h2 : roundNE (0 * scale) (100 * scale) = 0 := by omega
    rw [h2]
    have h3 : roundNE (0 * (20 * scale)) scale ≤ 0 :=
      roundNE_le onGrid_zero scale_pos (by simp)
    omega

/-! ## `progress` -/

theorem fillCount_le (pf : Platform) (p : F64) : fillCount pf p ≤ 20 := by
  unfold fillCount
  simp only
  split <;> omega

theorem wrapInt64_small {v : Int} (h0 : 0 ≤ v) (h1 : v ≤ 20) : wrapInt64 v = v := by
  unfold wrapInt64
  omega

theorem progress_of_nonneg (pf : Platform) (p : F64) (h : 0 ≤ fillCount pf p) :
    progress pf p = some ("[" ++ String.mk (List.replicate (fillCount pf p).toNat '=')
      ++ String.mk (List.replicate (20 - fillCount pf p).toNat ' ') ++ "] "
      ++ fmtF1 p ++ "%") := by
  have hle := fillCount_le pf p
  have e : progress pf p = (repeatRune '=' (fillCount pf p)).bind fun a =>
      (repeatRune ' ' (wrapInt64 (20 - fillCount pf p))).bind fun b =>
      some ("[" ++ String.mk a ++ String.mk b ++ "] " ++ fmtF1 p ++ "%") := rfl
  rw [e, repeatRune_of_nonneg _ h, wrapInt64_small (by omega) (by omega),
    repeatRune_of_nonneg _ (by omega)]
  rfl

theorem progress_of_neg (pf : Platform) (p : F64) (h : fillCount pf p < 0) :
    progress pf p = none := by
  have e : progress pf p = (repeatRune '=' (fillCount pf p)).bind fun a =>
      (repeatRune ' ' (wrapInt64 (20 - fillCount pf p))).bind fun b =>
      some ("[" ++ String.mk a ++ String.mk b ++ "] " ++ fmtF1 p ++ "%") := rfl
  rw [e, repeatRune_of_neg _ h]
  rfl

theorem toInt_of_small (pf : Platform) (neg : Bool) {X : Nat} (hX : X ≤ 20 * scale) :
    F64.toInt pf (.fin neg X) = F64.units neg (X / scale) := by
  have hq : X / scale ≤ 20 := by
    apply Nat.div_le_of_le_mul
    rw [Nat.mul_comm]; exact hX
  have hr : inInt64 (F64.units neg (X / scale)) = true := by
    generalize X / scale = q at hq
    unfold inInt64 F64.units
    cases neg <;> simp <;> omega
  unfold F64.toInt
  simp only [hr, if_true]

/-- On `[0, 100]` the fill count is the integer part of the product, whatever the platform. -/
theorem fillCount_of_range (pf : Platform) (neg : Bool) {n : Nat}
    (hs : neg = false ∨ n = 0) (hn : n ≤ 100 * scale) :
    ∃ X, F64.mul (F64.div (.fin neg n) (F64.ofInt 100)) (F64.ofInt 20) = .fin neg X
      ∧ X ≤ 20 * scale ∧ (neg = false ∨ X = 0) ∧ (n = 0 → X = 0)
      ∧ fillCount pf (.fin neg n) = ((X / scale : Nat) : Int) := by
  obtain ⟨X, hx, hX, h0⟩ := prod_of_le_100 neg hn
  have hq : X / scale ≤ 20 := by
    apply Nat.div_le_of_le_mul
    rw [Nat.mul_comm]; exact hX
  have hs2 : neg = false ∨ X = 0 := hs.imp id h0
  refine ⟨X, hx, hX, hs2, h0, ?_⟩
  have hu : F64.units neg (X / scale) = ((X / scale : Nat) : Int) := by
    rcases hs2 with h | h
    · subst h; rfl
    · subst h; cases neg <;> simp [F64.units]
  unfold fillCount
  simp only
  rw [hx, toInt_of_small pf neg hX, hu]
  rw [if_neg (by omega)]

/-! ## the label -/

theorem rne_err {N D : Nat} (hD : 0 < D) :
    2 * (rne N D * D) ≤ 2 * N + D ∧ 2 * N ≤ 2 * (rne N D * D) + D := by
  have hdm : N / D * D + N % D = N := Nat.div_add_mod' N D
  have hlt : N % D < D := Nat.mod_lt N hD
  unfold rne
  simp only
  split
  · constructor <;> omega
  · split
    · rw [Nat.add_mul]; constructor <;> omega
    · split
      · constructor <;> omega
      · rw [Nat.add_mul]; constructor <;> omega

theorem abs_toRat_fin (neg : Bool) (n : Nat) :
    |F64.toRat (.fin neg n)| = (n : ℚ) / (scale : ℚ) := by
  have hs : (0 : ℚ) < (scale : ℚ) := by exact_mod_cast scale_pos
  have hn : (0 : ℚ) ≤ (n : ℚ) := Nat.cast_nonneg n
  unfold F64.toRat F64.units
  cases neg
  · simp only [Bool.false_eq_true, if_false, Int.cast_natCast]
    exact abs_of_nonneg (div_nonneg hn hs.le)
  · simp only [if_true, Int.cast_neg, Int.cast_natCast, neg_div, abs_neg]
    exact abs_of_nonneg (div_nonneg hn hs.le)

theorem fmtF1_oneDecimal (neg : Bool) (n : Nat) : OneDecimalOf (fmtF1 (.fin neg n)) (.fin neg n) := by
  refine ⟨neg, rne (10 * n) scale / 10, rne (10 * n) scale % 10, Nat.mod_lt _ (by norm_num),
    rfl, ?_⟩
  rw [abs_toRat_fin, Nat.div_add_mod]
  obtain ⟨h1, h2⟩ := @rne_err (10 * n) scale scale_pos
  have hs : (0 : ℚ) < (scale : ℚ) := by exact_mod_cast scale_pos
  have h1q : (2 : ℚ) * ((rne (10 * n) scale : ℚ) * scale) ≤ 2 * (10 * n) + scale := by
    exact_mod_cast h1
  have h2q : (2 : ℚ) * (10 * n) ≤ 2 * ((rne (10 * n) scale : ℚ) * scale) + scale := by
    exact_mod_cast h2
  generalize (rne (10 * n) scale : ℚ) = T at h1q h2q ⊢
  have e : T / 10 - (n : ℚ) / scale = (T * scale - 10 * n) / (10 * scale) := by
    field_simp
  rw [e, abs_le]
  constructor
  · rw [le_div_iff₀ (by positivity)]
    linarith
  · rw [div_le_iff₀ (by positivity)]
    linarith

/-! ## `progress` on `[0, 100]` -/

theorem range_of_le {p : F64} (h0 : F64.le (F64.ofInt 0) p = true)
    (h100 : F64.le p (F64.ofInt 100) = true) :
    ∃ neg n, p = .fin neg n ∧ (neg = false ∨ n = 0) ∧ n ≤ 100 * scale := by
  rw [ofInt_zero] at h0
  rw [ofInt_100] at h100
  cases p with
  | nan => simp [F64.le] at h0
  | inf s => cases s <;> simp [F64.le] at h0 h100
  | fin neg n =>
    refine ⟨neg, n, rfl, ?_, ?_⟩
    · cases neg
      · exact Or.inl rfl
      · right
        simp [F64.le, F64.units] at h0
        omega
    · cases neg
      · simp [F64.le, F64.units] at h100
        exact_mod_cast h100
      · simp [F64.le, F64.units] at h0
        have : n = 0 := by omega
        omega

theorem mk_append_mk (a b : List Char) : String.mk a ++ String.mk b = String.mk (a ++ b) := rfl

theorem specFilled_of_range (neg : Bool) (n X : Nat)
    (hx : F64.mul (F64.div (.fin neg n) (F64.ofInt 100)) (F64.ofInt 20) = .fin neg X)
    (hX : X ≤ 20 * scale) (hs : neg = false ∨ X = 0) :
    specFilled (.fin neg n) = X / scale := by
  have hq : X / scale ≤ 20 := by
    apply Nat.div_le_of_le_mul
    rw [Nat.mul_comm]; exact hX
  have hu : F64.units neg X = (X : Int) := by
    rcases hs with h | h
    · subst h; rfl
    · subst h; cases neg <;> simp [F64.units]
  have hfl : ⌊F64.toRat (.fin neg X)⌋ = ((X / scale : Nat) : Int) := by
    show ⌊((F64.units neg X : Int) : ℚ) / (scale : ℚ)⌋ = _
    rw [hu, Rat.floor_intCast_div_natCast]
    norm_cast
  unfold specFilled
  rw [hx, hfl]
  generalize X / scale = q at hq
  unfold clamp
  rw [min_eq_left (by omega), max_eq_right (by omega), Int.toNat_natCast]

/-- On `[0, 100]`, `progress` returns the bar of the specification and a one-decimal label. -/
theorem progress_in_range (pf : Platform) (p : F64)
    (h0 : F64.le (F64.ofInt 0) p = true) (h100 : F64.le p (F64.ofInt 100) = true) :
    progress pf p = some ("[" ++ String.mk (specBar p) ++ "] " ++ fmtF1 p ++ "%")
      ∧ (specBar p).length = 20 ∧ OneDecimalOf (fmtF1 p) p := by
  obtain ⟨neg, n, rfl, hs, hn⟩ := range_of_le h0 h100
  obtain ⟨X, hx, hX, hs2, _, hc⟩ := fillCount_of_range pf neg hs hn
  have hq : X / scale ≤ 20 := by
    apply Nat.div_le_of_le_mul
    rw [Nat.mul_comm]; exact hX
  have hf := specFilled_of_range neg n X hx hX hs2
  refine ⟨?_, ?_, fmtF1_oneDecimal neg n⟩
  · rw [progress_of_nonneg pf _ (by rw [hc]; exact Int.natCast_nonneg _), hc]
    unfold specBar
    have e : (20 - ((X / scale : Nat) : Int)).toNat = 20 - X / scale := by omega
    rw [hf, e, Int.toNat_natCast]
    rfl
  · unfold specBar
    rw [hf]
    simp
    omega

/-! ## `Update` -/

/-- C2 (the code at the failing inputs): a tick whose CPU probe returned an empty
slice, or whose memory or disk probe returned a nil pointer, makes `Update` panic
(index out of range, nil dereference): no model is returned. -/
theorem Update_tick_failed_probe_panics (m : model) (t : Int) (cpu : List F64)
    (mem disk : Option F64) :
    Update m (.tick t) ⟨[], mem, disk⟩ = none
      ∧ Update m (.tick t) ⟨cpu, none, disk⟩ = none
      ∧ Update m (.tick t) ⟨cpu, mem, none⟩ = none := by
  refine ⟨rfl, ?_, ?_⟩
  · cases cpu <;> simp [Update]
  · cases cpu <;> cases mem <;> simp [Update]

/-- C3: for every model `m` and key message `k`, `Update` returns `m` itself; the
command is `tea.Quit` exactly when the key's string is `q` or `ctrl+c`, and it is nil
for every other key. -/
theorem Update_key (m : model) (k : KeyMsg) (pr : Probes) :
    ∃ cmd, Update m (.key k) pr = some (m, cmd)
      ∧ (cmd = some Cmd.quit ↔ (k.str = "q" ∨ k.str = "ctrl+c"))
      ∧ (¬ (k.str = "q" ∨ k.str = "ctrl+c") → cmd = none) := by
  by_cases h : k.str = "q" ∨ k.str = "ctrl+c"
  · exact ⟨some Cmd.quit, by simp [Update, h], by simp [h], fun hn => absurd h hn⟩
  · exact ⟨none, by simp [Update, h], by simp [h], fun _ => rfl⟩

/-- C4: when the three probes succeed with `c` (first CPU percentage), `v` (memory
used percent) and `d` (disk used percent), a tick sets the three percent fields to
`c`, `v`, `d`, keeps the other fields, and returns exactly the command of `tickCmd()`:
one tick after 1,000,000,000 ns, that is one second. -/
theorem Update_tick_success (m : model) (t : Int) (c : F64) (cs : List F64) (v d : F64) :
    Update m (.tick t) ⟨c :: cs, some v, some d⟩
        = some ({ cpuPercent := c, memPercent := v, diskPercent := d,
                  hostInfo := m.hostInfo, err := m.err }, some tickCmd)
      ∧ tickCmd = Cmd.tick 1000000000 :=
  ⟨by simp [Update], rfl⟩

/-- C10: `Update` never changes `hostInfo` or `err`, whatever the message and the
probe results, as long as it returns; hence every reachable state has `err = nil` and
the `hostInfo` captured by `initialModel`; and a message that is neither a key nor a
tick leaves the whole model unchanged and returns the nil command. -/
theorem Update_frame :
    (∀ (m m' : model) (msg : Msg) (pr : Probes) (cmd : Option Cmd),
        Update m msg pr = some (m', cmd) → m'.hostInfo = m.hostInfo ∧ m'.err = m.err)
      ∧ (∀ (h : Option InfoStat) (m : model), Reachable h m → m.err = none ∧ m.hostInfo = h)
      ∧ (∀ (m : model) (pr : Probes), Update m .other pr = some (m, none)) := by
  have frame : ∀ (m m' : model) (msg : Msg) (pr : Probes) (cmd : Option Cmd),
      Update m msg pr = some (m', cmd) → m'.hostInfo = m.hostInfo ∧ m'.err = m.err := by
    intro m m' msg pr cmd h
    cases msg with
    | key k =>
      by_cases hk : k.str = "q" ∨ k.str = "ctrl+c"
      · simp [Update, hk] at h
        rw [← h.1]; exact ⟨rfl, rfl⟩
      · simp [Update, hk] at h
        rw [← h.1]; exact ⟨rfl, rfl⟩
    | tick t =>
      obtain ⟨cpu, mem, disk⟩ := pr
      cases cpu with
      | nil => simp [Update] at h
      | cons c0 cs =>
        cases mem with
        | none => simp [Update] at h
        | some v =>
          cases disk with
          | none => simp [Update] at h
          | some d =>
            simp [Update] at h
            rw [← h.1]; exact ⟨rfl, rfl⟩
    | other =>
      simp [Update] at h
      rw [← h.1]; exact ⟨rfl, rfl⟩
  refine ⟨frame, ?_, fun _ _ => rfl⟩
  intro h m hr
  induction hr with
  | init => exact ⟨rfl, rfl⟩
  | step msg pr _ hu ih =>
    obtain ⟨e1, e2⟩ := frame _ _ msg pr _ hu
    exact ⟨e2.trans ih.1, e1.trans ih.2⟩

/-- Witness of `Update_frame`: the example model is reached by one successful tick,
and it has no error and the host information of the start. -/
theorem Update_frame_witness :
    Update (initialModel none) (.tick 0) ⟨[tenths 372], some (tenths 810), some (tenths 55)⟩
        = some (exampleModel, some tickCmd)
      ∧ Reachable none exampleModel
      ∧ exampleModel.err = none ∧ exampleModel.hostInfo = none := by
  have hu : Update (initialModel none) (.tick 0)
      ⟨[tenths 372], some (tenths 810), some (tenths 55)⟩
      = some (exampleModel, some tickCmd) := by
    simp [Update, initialModel, exampleModel]
  have hr : Reachable none exampleModel := Reachable.step _ _ Reachable.init hu
  exact ⟨hu, hr, Update_frame.2.1 none exampleModel hr⟩

/-! ## `View` -/

/-- C9: for every model whose `err` is set, `View` returns exactly `Error: ` followed
by the error's message (no header, host block, metric bars or footer, and no lipgloss
rendering), whatever the other fields are. -/
theorem View_error (lg : Lipgloss) (pf : Platform) (m : model) (msg : String)
    (h : m.err = some msg) : View lg pf m = some ("Error: " ++ msg) := by
  unfold View
  rw [h]

/-- Witness of `View_error`: a model whose error says `boom`. -/
theorem View_error_witness :
    ({ exampleModel with err := some "boom" } : model).err = some "boom"
      ∧ View plainLipgloss amd64 { exampleModel with err := some "boom" }
        = some "Error: boom" :=
  ⟨rfl, (View_error plainLipgloss amd64 { exampleModel with err := some "boom" } "boom"
    rfl).trans (by decide)⟩

/-! ## C5, C6: `progress` outside `[0, 100]` -/

theorem ofInt_2_63 : F64.ofInt (2 ^ 63) = .fin false (2 ^ 63 * scale) := by decide!

theorem string_append_mk_nil (s : String) : s ++ String.mk [] = s := by
  apply String.ext
  simp

/-- From `100.0` on, the fill count is 20 as long as the product converts to `int`. -/
theorem fillCount_of_ge_100 (pf : Platform) (p : F64)
    (h100 : F64.le (F64.ofInt 100) p = true)
    (hfit : F64.lt (F64.mul (F64.div p (F64.ofInt 100)) (F64.ofInt 20))
      (F64.ofInt (2 ^ 63)) = true) :
    fillCount pf p = 20 := by
  rw [ofInt_100] at h100
  rw [ofInt_2_63] at hfit
  cases p with
  | nan => simp [F64.le] at h100
  | inf s =>
    cases s
    · rw [ofInt_100, ofInt_20] at hfit
      have h : 20 * scale ≠ 0 := by have := scale_pos; omega
      simp [F64.div, F64.mul, F64.lt, h] at hfit
    · simp [F64.le] at h100
  | fin neg n =>
    have hn : neg = false ∧ 100 * scale ≤ n := by
      have hp := scale_pos
      cases neg
      · simp [F64.le, F64.units] at h100
        exact ⟨rfl, by exact_mod_cast h100⟩
      · simp [F64.le, F64.units] at h100
        omega
    obtain ⟨rfl, hn⟩ := hn
    have hY : scale ≤ roundNE (n * scale) (100 * scale) := by
      apply le_roundNE onGrid_scale (by have := scale_pos; omega)
      calc scale * (100 * scale) = 100 * scale * scale := by ring
        _ ≤ n * scale := Nat.mul_le_mul_right _ hn
    have hX : 20 * scale
        ≤ roundNE (roundNE (n * scale) (100 * scale) * (20 * scale)) scale := by
      apply le_roundNE onGrid_20 scale_pos
      calc 20 * scale * scale = scale * (20 * scale) := by ring
        _ ≤ roundNE (n * scale) (100 * scale) * (20 * scale) := Nat.mul_le_mul_right _ hY
    have h20 : 20 * scale ≠ 0 := by have := scale_pos; omega
    rw [div_100] at hfit
    unfold fillCount
    simp only
    rw [div_100]
    unfold F64.pack at hfit ⊢
    split at hfit
    · next h1 =>
      rw [if_pos h1]
      rw [mul_20] at hfit ⊢
      unfold F64.pack at hfit ⊢
      split at hfit
      · next h2 =>
        rw [if_pos h2]
        generalize roundNE (roundNE (n * scale) (100 * scale) * (20 * scale)) scale = X
          at hX hfit h2
        have hlt : X < 2 ^ 63 * scale := by
          simp [F64.lt, F64.units] at hfit
          exact_mod_cast hfit
        have hq1 : 20 ≤ X / scale := (Nat.le_div_iff_mul_le scale_pos).mpr hX
        have hq2 : X / scale < 2 ^ 63 := (Nat.div_lt_iff_lt_mul scale_pos).mpr hlt
        unfold F64.toInt
        simp only
        generalize X / scale = q at hq1 hq2 ⊢
        have hr : inInt64 (F64.units false q) = true := by
          unfold inInt64 F64.units
          simp
          omega
        simp only [hr, if_true]
        simp only [F64.units, Bool.false_eq_true, if_false]
        split <;> omega
      · simp [F64.lt] at hfit
    · rw [ofInt_20] at hfit
      simp [F64.mul, F64.lt, h20] at hfit

/-- From `100.0` on, as long as the product `p / 100 * 20` is below `2^63`, `progress`
returns a bar of exactly 20 `=` and no blank; and `progress(0.0)` returns a bar of
exactly 20 blanks. -/
theorem progress_full_and_blank (pf : Platform) (p : F64)
    (h100 : F64.le (F64.ofInt 100) p = true)
    (hfit : F64.lt (F64.mul (F64.div p (F64.ofInt 100)) (F64.ofInt 20))
      (F64.ofInt (2 ^ 63)) = true) :
    progress pf p = some ("[" ++ String.mk (List.replicate 20 '=') ++ "] " ++ fmtF1 p ++ "%")
      ∧ progress pf (.fin false 0)
          = some ("[" ++ String.mk (List.replicate 20 ' ') ++ "] " ++ "0.0" ++ "%") := by
  constructor
  · have hc := fillCount_of_ge_100 pf p h100 hfit
    rw [progress_of_nonneg pf p (by omega), hc]
    simp only [Int.sub_self, Int.toNat_zero, List.replicate_zero]
    rw [string_append_mk_nil]
    rfl
  · obtain ⟨X, _, _, _, h0, hc⟩ :=
      @fillCount_of_range pf false 0 (Or.inl rfl) (Nat.zero_le _)
    rw [h0 rfl, Nat.zero_div] at hc
    rw [progress_of_nonneg pf _ (by rw [hc]; exact le_refl _), hc]
    have hl : fmtF1 (.fin false 0) = "0.0" := by decide!
    rw [hl]
    rfl

/-- The bars of `150.0` and `0.0`, evaluated. -/
theorem progress_full_and_blank_witness :
    (F64.le (F64.ofInt 100) (F64.ofInt 150) = true
        ∧ F64.lt (F64.mul (F64.div (F64.ofInt 150) (F64.ofInt 100)) (F64.ofInt 20))
            (F64.ofInt (2 ^ 63)) = true)
      ∧ progress amd64 (F64.ofInt 150) = some "[====================] 150.0%"
      ∧ progress amd64 (.fin false 0) = some "[                    ] 0.0%" := by
  have h := progress_full_and_blank amd64 (F64.ofInt 150) (by decide!) (by decide!)
  exact ⟨⟨by decide!, by decide!⟩, h.1.trans (by decide!), h.2.trans (by decide!)⟩

/-- C5 (the code at the failing input): `1e30` is a `float64` not below `100.0`; on
amd64 the conversion of the product `2e29` to `int` yields `-2^63`, the clamp
`if c > w` leaves this negative count as it is, and `progress(1e30)` panics in
`make([]rune, c)` instead of returning a full bar. -/
theorem progress_1e30_amd64_panics :
    F64.isBinary64 f1e30 = true ∧ F64.le (F64.ofInt 100) f1e30 = true
      ∧ fillCount amd64 f1e30 = -(2 : Int) ^ 63 ∧ progress amd64 f1e30 = none := by
  decide!

/-- C6 (the code at the failing input): `progress(-10.0)` computes the fill count
`-2`, which no clamp raises to 0, and panics in `make([]rune, -2)`: no bar is
returned, on any platform. -/
theorem progress_neg10_panics (pf : Platform) :
    fillCount pf fNeg10 = -2 ∧ progress pf fNeg10 = none :=
  ⟨rfl, rfl⟩

/-! ## the characters of a bar -/

theorem digitChar_mem (k : Nat) : Nat.digitChar (k % 10) ∈ barAlphabet := by
  have h : k % 10 < 10 := Nat.mod_lt _ (by norm_num)
  generalize k % 10 = d at h
  interval_cases d <;> decide

theorem toDigitsCore_mem (fuel : Nat) : ∀ (n : Nat) (ds : List Char),
    (∀ c ∈ ds, c ∈ barAlphabet) → ∀ c ∈ Nat.toDigitsCore 10 fuel n ds, c ∈ barAlphabet := by
  induction fuel with
  | zero => intro n ds hds c hc; exact hds c (by simpa [Nat.toDigitsCore] using hc)
  | succ fuel ih =>
    intro n ds hds c hc
    have hcons : ∀ c ∈ Nat.digitChar (n % 10) :: ds, c ∈ barAlphabet := by
      intro c hc
      rcases List.mem_cons.mp hc with h | h
      · rw [h]; exact digitChar_mem n
      · exact hds c h
    unfold Nat.toDigitsCore at hc
    simp only at hc
    split at hc
    · exact hcons c hc
    · exact ih _ _ hcons c hc

theorem repr_mem (n : Nat) : ∀ c ∈ (Nat.repr n).data, c ∈ barAlphabet := by
  intro c hc
  have : (Nat.repr n).data = Nat.toDigitsCore 10 (n + 1) n [] := rfl
  rw [this] at hc
  exact toDigitsCore_mem _ _ _ (by simp) c hc

theorem fmtF1_mem (p : F64) : ∀ c ∈ (fmtF1 p).data, c ∈ barAlphabet := by
  cases p with
  | nan => decide
  | inf s => cases s <;> decide
  | fin neg n =>
    intro c hc
    simp only [fmtF1, String.data_append, List.mem_append] at hc
    rcases hc with ((hc | hc) | hc) | hc
    · cases neg
      · simp at hc
      · have : c = '-' := by simpa using hc
        rw [this]; decide
    · exact repr_mem _ c hc
    · have : c = '.' := by simpa using hc
      rw [this]; decide
    · exact repr_mem _ c hc

theorem progress_mem (pf : Platform) (p : F64) (s : String) (h : progress pf p = some s) :
    ∀ c ∈ s.data, c ∈ barAlphabet := by
  by_cases hc : fillCount pf p < 0
  · rw [progress_of_neg pf p hc] at h
    cases h
  · rw [progress_of_nonneg pf p (by omega)] at h
    injection h with h
    subst h
    intro c hc
    simp only [String.data_append, List.mem_append, List.mem_replicate] at hc
    rcases hc with ((((hc | hc) | hc) | hc) | hc) | hc
    · have : c = '[' := by simpa using hc
      rw [this]; decide
    · rw [hc.2]; decide
    · rw [hc.2]; decide
    · have : c = ']' ∨ c = ' ' := by simpa using hc
      rcases this with e | e <;> rw [e] <;> decide
    · exact fmtF1_mem p c hc
    · have : c = '%' := by simpa using hc
      rw [this]; decide

theorem barAlphabet_sub : ∀ c ∈ barAlphabet, c ∈ bodyAlphabet := by
  intro c hc
  exact List.mem_append_left _ hc

theorem metricsBody_mem (cpu ram disk : String)
    (h1 : ∀ c ∈ cpu.data, c ∈ barAlphabet) (h2 : ∀ c ∈ ram.data, c ∈ barAlphabet)
    (h3 : ∀ c ∈ disk.data, c ∈ barAlphabet) :
    ∀ c ∈ (metricsBody cpu ram disk).data, c ∈ bodyAlphabet := by
  have lit : ∀ s : List Char, (∀ c ∈ s, c ∈ bodyAlphabet) → ∀ c ∈ s, c ∈ bodyAlphabet :=
    fun _ h => h
  intro c hc
  simp only [metricsBody, String.data_append, List.mem_append] at hc
  rcases hc with
    ((((hc | hc) | ((hc | hc) | hc)) | ((hc | hc) | hc)) | ((hc | hc) | hc)) | hc
  · exact lit "\n\n".data (by decide) c hc
  · exact lit "\n".data (by decide) c hc
  · exact lit "CPU:  ".data (by decide) c hc
  · exact barAlphabet_sub c (h1 c hc)
  · exact lit "\n".data (by decide) c hc
  · exact lit "RAM:  ".data (by decide) c hc
  · exact barAlphabet_sub c (h2 c hc)
  · exact lit "\n".data (by decide) c hc
  · exact lit "Disk: ".data (by decide) c hc
  · exact barAlphabet_sub c (h3 c hc)
  · exact lit "\n".data (by decide) c hc
  · exact lit "\nPress 'q' to quit".data (by decide) c hc

theorem no_hostLabel (body : String) (hb : ∀ c ∈ body.data, c ∈ bodyAlphabet) :
    ∀ l ∈ hostLabels, ¬ l.data <:+: body.data := by
  have key : ∀ (l : String) (ch : Char), ch ∈ l.data → ch ∉ bodyAlphabet →
      ¬ l.data <:+: body.data := by
    intro l ch hl hn hi
    exact hn (hb ch (hi.subset hl))
  intro l hl
  simp only [hostLabels, List.mem_cons, List.mem_singleton, List.not_mem_nil, or_false] at hl
  rcases hl with rfl | rfl | rfl | rfl
  · exact key _ 'H' (by decide) (by decide)
  · exact key _ 'O' (by decide) (by decide)
  · exact key _ 'K' (by decide) (by decide)
  · exact key _ 'm' (by decide) (by decide)

/-! ## `View` without host information -/

theorem progress_isSome_of_range (pf : Platform) (p : F64) (h : inPercentRange p) :
    ∃ s, progress pf p = some s :=
  ⟨_, (progress_in_range pf p h.1 h.2).1⟩

theorem viewDoc_no_host (lg : Lipgloss) (pf : Platform) (m : model) (hh : m.hostInfo = none) :
    viewDoc lg pf m
      = match progress pf m.cpuPercent, progress pf m.memPercent, progress pf m.diskPercent with
        | some cpu, some ram, some disk =>
          some (lg.listHeader "System Monitor" ++ metricsBody cpu ram disk)
        | _, _, _ => none := by
  unfold viewDoc
  rw [hh]
  cases progress pf m.cpuPercent with
  | none => rfl
  | some cpu =>
    cases progress pf m.memPercent with
    | none => rfl
    | some ram =>
      cases progress pf m.diskPercent with
      | none => rfl
      | some disk =>
        simp only [Option.bind, metricsBody]
        congr 1
        apply String.ext
        simp only [String.data_append, List.append_assoc]

/-- With no error and a nil `hostInfo`, the text `View` builds is the header followed
by the separators, the three metric lines in the order CPU, RAM, Disk and the footer,
rendered by `docStyle`, whenever the three calls of `progress` return (which they do
for percentages in `[0, 100]`); none of the host labels occurs after the header. -/
theorem View_without_host (lg : Lipgloss) (pf : Platform) (m : model)
    (herr : m.err = none) (hh : m.hostInfo = none) :
    (viewDoc lg pf m
      = match progress pf m.cpuPercent, progress pf m.memPercent, progress pf m.diskPercent with
        | some cpu, some ram, some disk =>
          some (lg.listHeader "System Monitor" ++ metricsBody cpu ram disk)
        | _, _, _ => none)
      ∧ View lg pf m = (viewDoc lg pf m).map lg.docStyleRender
      ∧ (∀ cpu ram disk, progress pf m.cpuPercent = some cpu →
          progress pf m.memPercent = some ram → progress pf m.diskPercent = some disk →
          ∀ l ∈ hostLabels, ¬ l.data <:+: (metricsBody cpu ram disk).data)
      ∧ (inPercentRange m.cpuPercent → inPercentRange m.memPercent →
          inPercentRange m.diskPercent →
          ∃ cpu ram disk, View lg pf m
            = some (lg.docStyleRender (lg.listHeader "System Monitor" ++ metricsBody cpu ram disk))) := by
  have hv : View lg pf m = (viewDoc lg pf m).map lg.docStyleRender := by
    unfold View
    rw [herr]
  refine ⟨viewDoc_no_host lg pf m hh, hv, ?_, ?_⟩
  · intro cpu ram disk h1 h2 h3
    exact no_hostLabel _ (metricsBody_mem cpu ram disk (progress_mem pf _ _ h1)
      (progress_mem pf _ _ h2) (progress_mem pf _ _ h3))
  · intro r1 r2 r3
    obtain ⟨cpu, h1⟩ := progress_isSome_of_range pf _ r1
    obtain ⟨ram, h2⟩ := progress_isSome_of_range pf _ r2
    obtain ⟨disk, h3⟩ := progress_isSome_of_range pf _ r3
    refine ⟨cpu, ram, disk, ?_⟩
    rw [hv, viewDoc_no_host lg pf m hh, h1, h2, h3]
    rfl

/-- The text of the example model with plain renderers, evaluated. -/
theorem View_without_host_witness :
    exampleModel.err = none ∧ exampleModel.hostInfo = none
      ∧ View plainLipgloss amd64 exampleModel
        = some ("System Monitor" ++ "\n\n" ++ "\n"
            ++ "CPU:  [=======             ] 37.2%\n"
            ++ "RAM:  [================    ] 81.0%\n"
            ++ "Disk: [=                   ] 5.5%\n"
            ++ "\nPress 'q' to quit") := by
  have h := View_without_host plainLipgloss amd64 exampleModel rfl rfl
  exact ⟨rfl, rfl, h.2.1.trans (by decide!)⟩

/-! ## C8: the fill count and a fifth of the percentage -/

theorem allFrom_spec (f : Nat → Bool) (lo : Nat) : ∀ n, allFrom f lo n = true →
    ∀ k, lo ≤ k → k < lo + n → f k = true := by
  intro n
  induction n with
  | zero => intro _ k h1 h2; omega
  | succ n ih =>
    intro h k h1 h2
    simp only [allFrom, Bool.and_eq_true] at h
    by_cases hk : k = lo + n
    · rw [hk]; exact h.1
    · exact ih h.2 k h1 (by omega)

theorem tenths_chunk_0 : allFrom tenthsCheck 0 91 = true := by decide!

theorem tenths_chunk_1 : allFrom tenthsCheck 91 91 = true := by decide!

theorem tenths_chunk_2 : allFrom tenthsCheck 182 91 = true := by decide!

theorem tenths_chunk_3 : allFrom tenthsCheck 273 91 = true := by decide!

theorem tenths_chunk_4 : allFrom tenthsCheck 364 91 = true := by decide!

theorem tenths_chunk_5 : allFrom tenthsCheck 455 91 = true := by decide!

theorem tenths_chunk_6 : allFrom tenthsCheck 546 91 = true := by decide!

theorem tenths_chunk_7 : allFrom tenthsCheck 637 91 = true := by decide!

theorem tenths_chunk_8 : allFrom tenthsCheck 728 91 = true := by decide!

theorem tenths_chunk_9 : allFrom tenthsCheck 819 91 = true := by decide!

theorem tenths_chunk_10 : allFrom tenthsCheck 910 91 = true := by decide!

theorem tenths_checked : ∀ k < 1001, tenthsCheck k = true := by
  intro k hk
  by_cases h0 : k < 91
  · exact allFrom_spec _ _ _ tenths_chunk_0 k (by omega) (by omega)
  by_cases h1 : k < 182
  · exact allFrom_spec _ _ _ tenths_chunk_1 k (by omega) (by omega)
  by_cases h2 : k < 273
  · exact allFrom_spec _ _ _ tenths_chunk_2 k (by omega) (by omega)
  by_cases h3 : k < 364
  · exact allFrom_spec _ _ _ tenths_chunk_3 k (by omega) (by omega)
  by_cases h4 : k < 455
  · exact allFrom_spec _ _ _ tenths_chunk_4 k (by omega) (by omega)
  by_cases h5 : k < 546
  · exact allFrom_spec _ _ _ tenths_chunk_5 k (by omega) (by omega)
  by_cases h6 : k < 637
  · exact allFrom_spec _ _ _ tenths_chunk_6 k (by omega) (by omega)
  by_cases h7 : k < 728
  · exact allFrom_spec _ _ _ tenths_chunk_7 k (by omega) (by omega)
  by_cases h8 : k < 819
  · exact allFrom_spec _ _ _ tenths_chunk_8 k (by omega) (by omega)
  by_cases h9 : k < 910
  · exact allFrom_spec _ _ _ tenths_chunk_9 k (by omega) (by omega)
  exact allFrom_spec _ _ _ tenths_chunk_10 k (by omega) (by omega)

theorem floor_fifth (n : Nat) :
    ⌊F64.toRat (.fin false n) / 5⌋ = ((n / (5 * scale) : Nat) : Int) := by
  have e : F64.toRat (.fin false n) / 5 = ((n : Int) : ℚ) / ((5 * scale : Nat) : ℚ) := by
    show ((F64.units false n : Int) : ℚ) / (scale : ℚ) / 5 = _
    have : F64.units false n = (n : Int) := rfl
    rw [this]
    push_cast
    rw [div_div, mul_comm]
  rw [e, Rat.floor_intCast_div_natCast]
  norm_cast

theorem fillCount_indep (pf pf' : Platform) (p : F64) (h : inPercentRange p) :
    fillCount pf p = fillCount pf' p := by
  obtain ⟨neg, n, rfl, hs, hn⟩ := range_of_le h.1 h.2
  obtain ⟨X, hx, _, _, _, hc⟩ := fillCount_of_range pf neg hs hn
  obtain ⟨X', hx', _, _, _, hc'⟩ := fillCount_of_range pf' neg hs hn
  rw [hx] at hx'
  injection hx' with _ hXX
  rw [hc, hc', hXX]

theorem progress_indep (pf pf' : Platform) (p : F64) (h : inPercentRange p) :
    progress pf p = progress pf' p := by
  rw [(progress_in_range pf p h.1 h.2).1, (progress_in_range pf' p h.1 h.2).1]

theorem fillCount_floor (pf : Platform) (p : F64) (h : inPercentRange p) :
    fillCount pf p = ⌊F64.toRat (F64.mul (F64.div p (F64.ofInt 100)) (F64.ofInt 20))⌋ := by
  obtain ⟨neg, n, rfl, hs, hn⟩ := range_of_le h.1 h.2
  obtain ⟨X, hx, _, hs2, _, hc⟩ := fillCount_of_range pf neg hs hn
  have hu : F64.units neg X = (X : Int) := by
    rcases hs2 with h | h
    · subst h; rfl
    · subst h; cases neg <;> simp [F64.units]
  rw [hc, hx]
  show _ = ⌊((F64.units neg X : Int) : ℚ) / (scale : ℚ)⌋
  rw [hu, Rat.floor_intCast_div_natCast]
  norm_cast

theorem fillCount_tenths (pf : Platform) (k : Nat) (hk : k ≤ 1000) :
    inPercentRange (tenths k) ∧ fillCount pf (tenths k) = ⌊F64.toRat (tenths k) / 5⌋ := by
  have h := tenths_checked k (by omega)
  unfold tenthsCheck at h
  split at h
  · next n e =>
    rw [e]
    simp only [Bool.and_eq_true, decide_eq_true_eq] at h
    have hr : inPercentRange (.fin false n) := by
      constructor
      · rw [ofInt_zero]
        simp [F64.le, F64.units]
      · rw [ofInt_100]
        simp only [F64.le, F64.units, Bool.false_eq_true, if_false, decide_eq_true_eq]
        exact_mod_cast h.1
    exact ⟨hr, by rw [fillCount_indep pf amd64 _ hr, h.2, floor_fifth]⟩
  · cases h

theorem progress_tenths (pf : Platform) (k : Nat) (hk : k ≤ 1000) :
    progress pf (tenths k) = progress amd64 (tenths k) :=
  progress_indep pf amd64 _ (fillCount_tenths pf k hk).1

theorem viewDoc_eq (lg : Lipgloss) (pf : Platform) (m : model) (cpu ram disk : String)
    (h1 : progress pf m.cpuPercent = some cpu) (h2 : progress pf m.memPercent = some ram)
    (h3 : progress pf m.diskPercent = some disk) :
    viewDoc lg pf m = some (docPrefix lg m ++ ("CPU:  " ++ cpu ++ "\n")
      ++ ("RAM:  " ++ ram ++ "\n") ++ ("Disk: " ++ disk ++ "\n") ++ "\nPress 'q' to quit") := by
  unfold viewDoc docPrefix
  rw [h1, h2, h3]
  cases m.hostInfo <;> rfl

/-- C8 (amended): for every model with no error whose metrics are 37.2, 81.0 and 5.5,
the text of `View` ends with the three metric lines, in the order CPU, RAM, Disk, with
the labels `37.2%`, `81.0%`, `5.5%` and the fill counts 7, 16 and 1, followed by the
footer; for every percent `p` that is the `float64` nearest to a one-decimal value
`k / 10` with `0 <= k <= 1000` the fill count is `floor(p / 5)`; and for every percent
in `[0, 100]` it is the floor of the `float64` product `p / 100 * 20`. -/
theorem metric_lines_example (lg : Lipgloss) (pf : Platform) (m : model)
    (herr : m.err = none) (hc : m.cpuPercent = tenths 372)
    (hm : m.memPercent = tenths 810) (hd : m.diskPercent = tenths 55) :
    View lg pf m = some (lg.docStyleRender (docPrefix lg m
        ++ ("CPU:  " ++ "[=======             ] 37.2%" ++ "\n")
        ++ ("RAM:  " ++ "[================    ] 81.0%" ++ "\n")
        ++ ("Disk: " ++ "[=                   ] 5.5%" ++ "\n")
        ++ "\nPress 'q' to quit"))
      ∧ (fillCount pf (tenths 372) = 7 ∧ fillCount pf (tenths 810) = 16
          ∧ fillCount pf (tenths 55) = 1)
      ∧ (∀ k, k ≤ 1000 → fillCount pf (tenths k) = ⌊F64.toRat (tenths k) / 5⌋)
      ∧ (∀ p, inPercentRange p → fillCount pf p
          = ⌊F64.toRat (F64.mul (F64.div p (F64.ofInt 100)) (F64.ofInt 20))⌋) := by
  have p1 : progress pf m.cpuPercent = some "[=======             ] 37.2%" := by
    rw [hc, progress_tenths pf 372 (by norm_num)]; decide!
  have p2 : progress pf m.memPercent = some "[================    ] 81.0%" := by
    rw [hm, progress_tenths pf 810 (by norm_num)]; decide!
  have p3 : progress pf m.diskPercent = some "[=                   ] 5.5%" := by
    rw [hd, progress_tenths pf 55 (by norm_num)]; decide!
  have f1 : fillCount pf (tenths 372) = 7 := by
    rw [fillCount_indep pf amd64 _ (fillCount_tenths pf 372 (by norm_num)).1]; decide!
  have f2 : fillCount pf (tenths 810) = 16 := by
    rw [fillCount_indep pf amd64 _ (fillCount_tenths pf 810 (by norm_num)).1]; decide!
  have f3 : fillCount pf (tenths 55) = 1 := by
    rw [fillCount_indep pf amd64 _ (fillCount_tenths pf 55 (by norm_num)).1]; decide!
  refine ⟨?_, ⟨f1, f2, f3⟩, fun k hk => (fillCount_tenths pf k hk).2,
    fun p hp => fillCount_floor pf p hp⟩
  unfold View
  rw [herr]
  simp only
  rw [viewDoc_eq lg pf m _ _ _ p1 p2 p3]
  rfl

/-- Witness of `metric_lines_example`: the example model with plain renderers. -/
theorem metric_lines_example_witness :
    exampleModel.err = none ∧ exampleModel.cpuPercent = tenths 372
      ∧ exampleModel.memPercent = tenths 810 ∧ exampleModel.diskPercent = tenths 55
      ∧ fillCount amd64 (tenths 372) = 7 ∧ ⌊F64.toRat (tenths 372) / 5⌋ = 7 := by
  have h := metric_lines_example plainLipgloss amd64 exampleModel rfl rfl rfl rfl
  exact ⟨rfl, rfl, rfl, rfl, h.2.1.1, (h.2.2.1 372 (by norm_num)).symm.trans h.2.1.1⟩

/-- C8 (counterexample): `14.999999999999998` is a `float64` in `[0, 100]` whose bar
has 3 fill characters although `floor(p / 5) = 2`: the two roundings of `p / 100 * 20`
give exactly `3.0`. -/
theorem fill_below_15_not_floor_fifth :
    F64.isBinary64 fBelow15 = true ∧ inPercentRange fBelow15
      ∧ fillCount amd64 fBelow15 = 3 ∧ fillCount arm64 fBelow15 = 3
      ∧ ⌊F64.toRat fBelow15 / 5⌋ = 2 := by
  refine ⟨by decide!, ⟨by decide!, by decide!⟩, by decide!, by decide!, ?_⟩
  unfold fBelow15
  rw [floor_fifth]
  decide!

/-! ## C1: the fill count and the exact formula -/

theorem fillCount_eq_specFilled (pf : Platform) (p : F64) (h : inPercentRange p) :
    fillCount pf p = ((specFilled p : Nat) : Int) := by
  obtain ⟨neg, n, rfl, hs, hn⟩ := range_of_le h.1 h.2
  obtain ⟨X, hx, hX, hs2, _, hc⟩ := fillCount_of_range pf neg hs hn
  rw [hc, specFilled_of_range neg n X hx hX hs2]

theorem specFilled_le (p : F64) : specFilled p ≤ 20 := by
  unfold specFilled clamp
  omega

theorem floor_exact (n : Nat) :
    ⌊F64.toRat (.fin false n) / 100 * 20⌋ = ((n / (5 * scale) : Nat) : Int) := by
  have e : F64.toRat (.fin false n) / 100 * 20 = F64.toRat (.fin false n) / 5 := by ring
  rw [e, floor_fifth]

theorem exactFilled_tenths (k : Nat) (hk : k ≤ 1000) :
    specFilled (tenths k) = exactFilled (tenths k) := by
  obtain ⟨hr, hf⟩ := fillCount_tenths amd64 k hk
  have hle := specFilled_le (tenths k)
  have e : ⌊F64.toRat (tenths k) / 100 * 20⌋ = ((specFilled (tenths k) : Nat) : Int) := by
    have e5 : F64.toRat (tenths k) / 100 * 20 = F64.toRat (tenths k) / 5 := by ring
    rw [e5, ← hf, fillCount_eq_specFilled amd64 _ hr]
  unfold exactFilled
  rw [e]
  generalize specFilled (tenths k) = q at hle
  unfold clamp
  omega

/-- C1 (amended): for every percent `p` with `0 <= p <= 100`, `progress(p)` returns the
text `[` + bar + `] ` + label + `%`, where the bar has exactly 20 characters,
`filled` characters `=` followed by `20 - filled` blanks, with `filled =
clamp(floor(x), 0, 20)` for `x` the `float64` product `p / 100 * 20` as the code
evaluates it (a rounded division, then a rounded multiplication), and the label is `p`
formatted by `%.1f`: a numeral with exactly one digit after the decimal point, nearest
to `p`; for every `p` that is the `float64` nearest to a one-decimal value `k / 10`,
`0 <= k <= 1000`, this `filled` is also the formula in exact arithmetic. -/
theorem progress_spec (pf : Platform) (p : F64)
    (h0 : F64.le (F64.ofInt 0) p = true) (h100 : F64.le p (F64.ofInt 100) = true) :
    progress pf p = some ("[" ++ String.mk (specBar p) ++ "] " ++ fmtF1 p ++ "%")
      ∧ (specBar p).length = 20 ∧ OneDecimalOf (fmtF1 p) p
      ∧ (∀ k, k ≤ 1000 → specFilled (tenths k) = exactFilled (tenths k)) :=
  ⟨(progress_in_range pf p h0 h100).1, (progress_in_range pf p h0 h100).2.1,
    (progress_in_range pf p h0 h100).2.2, exactFilled_tenths⟩

/-- Witness of `progress_spec`: the percentage 37.2. -/
theorem progress_spec_witness :
    (F64.le (F64.ofInt 0) (tenths 372) = true ∧ F64.le (tenths 372) (F64.ofInt 100) = true)
      ∧ progress amd64 (tenths 372) = some "[=======             ] 37.2%"
      ∧ (specBar (tenths 372)).length = 20 := by
  have h := progress_spec amd64 (tenths 372) (by decide!) (by decide!)
  exact ⟨⟨by decide!, by decide!⟩, h.1.trans (by decide!), h.2.1⟩

/-- C1 (counterexample): `14.999999999999998` is a `float64` in `[0, 100]` for which
`progress` returns a bar of 3 fill characters and 17 blanks, while the formula
`clamp(floor(p / 100 * 20), 0, 20)` in exact arithmetic gives 2. -/
theorem progress_below_15_not_exact_formula :
    F64.isBinary64 fBelow15 = true ∧ inPercentRange fBelow15
      ∧ progress amd64 fBelow15 = some "[===                 ] 15.0%"
      ∧ progress arm64 fBelow15 = some "[===                 ] 15.0%"
      ∧ exactFilled fBelow15 = 2 := by
  refine ⟨by decide!, ⟨by decide!, by decide!⟩, by decide!, by decide!, ?_⟩
  unfold exactFilled fBelow15
  rw [floor_exact]
  decide!

/-! ## C7: `View` where `progress` panics -/

theorem progress_nan_amd64 : progress amd64 .nan = none := by decide!

theorem progress_fNeg10 (pf : Platform) : progress pf fNeg10 = none := rfl

/-- C7 (the code at the failing inputs): for the model with no error, a nil `hostInfo`
and `cpuPercent = -10.0`, `View` panics inside `progress` on every platform and with
every renderer, so no text with metric lines and footer is built; likewise on amd64
for the model whose `memPercent` is NaN, a model that one tick reaches from
`initialModel` when the memory probe reports NaN. -/
theorem View_without_host_panics (lg : Lipgloss) (pf : Platform) :
    (negModel.err = none ∧ negModel.hostInfo = none ∧ View lg pf negModel = none)
      ∧ (nanModel.err = none ∧ nanModel.hostInfo = none ∧ Reachable none nanModel
          ∧ View lg amd64 nanModel = none) := by
  refine ⟨⟨rfl, rfl, ?_⟩, rfl, rfl, ?_, ?_⟩
  · have h : progress pf negModel.cpuPercent = none := progress_fNeg10 pf
    unfold View viewDoc
    simp only [negModel] at h ⊢
    rw [h]
    rfl
  · have hu : Update (initialModel none) (.tick 0) ⟨[.fin false 0], some .nan, some (.fin false 0)⟩
        = some (nanModel, some tickCmd) := by
      simp [Update, initialModel, nanModel]
    exact Reachable.step _ _ Reachable.init hu
  · have h0 : ∃ s, progress amd64 nanModel.cpuPercent = some s :=
      ⟨_, (progress_in_range amd64 (.fin false 0) (by decide!) (by decide!)).1⟩
    obtain ⟨s, hs⟩ := h0
    have h : progress amd64 nanModel.memPercent = none := progress_nan_amd64
    unfold View viewDoc
    simp only [nanModel] at h hs ⊢
    rw [hs, h]
    rfl

end SysMon
